import Mathlib

/-!
Verification of the local polynomial kernel smoother with leave-one-out
bandwidth selection (`src/python/smoothing.py`).

The Python module is embedded shallowly:

* real-valued numpy arrays become `List ℚ` (exact rational arithmetic in
  place of floating point, the standard idealization);
* Python exceptions become the error side of `Except PyErr`;
* `scipy.linalg.solve` becomes `_weighted_least_squares`' solver branch: it
  returns the unique solution of the nonsingular linear system (computed by
  Cramer's rule, which agrees with any correct solver) and raises the
  singular-matrix error (`scipy.linalg.LinAlgError`) when the determinant is
  zero;
* the two numpy kernels, which are element-wise transcendental/comparison
  maps on floats, are embedded over `ℝ` so that `exp` is available.
-/

/-- The Python exceptions the embedded code can raise: numpy's shape
mismatch (`ValueError` from a matrix product or a boolean mask of the wrong
length is folded with the mask case into `shapeMismatch`/`indexError`),
scipy's `LinAlgError` for a singular system, `IndexError` from indexing,
and `ValueError` from `np.argmin` on an empty array. -/
inductive PyErr
  | shapeMismatch
  | singularMatrix
  | indexError
  | valueError
deriving DecidableEq

/-- A Python `for` loop that builds one output per input element and lets
any raised exception propagate, aborting the loop. -/
def mapExcept {α β : Type} (f : α → Except PyErr β) : List α → Except PyErr (List β)
  | [] => .ok []
  | a :: as => do
    let b ← f a
    let bs ← mapExcept f as
    .ok (b :: bs)

/-- Number of columns of a design matrix stored as a list of rows (numpy
reads it off the array shape; every row produced by `_polynomial` has the
same length, and for an empty matrix the column count is irrelevant). -/
def ncols (X : List (List ℚ)) : ℕ := (X.headD []).length

/-- The matrix `X.T @ W @ X` of `_weighted_least_squares`, with
`W = np.diag(w)`: entry `(i, j)` is `∑ r, X[r][i] * w[r] * X[r][j]`. -/
def normalMatrix (X : List (List ℚ)) (w : List ℚ) :
    Matrix (Fin (ncols X)) (Fin (ncols X)) ℚ :=
  fun i j => ∑ r ∈ Finset.range X.length,
    (X.getD r []).getD i 0 * w.getD r 0 * (X.getD r []).getD j 0

/-- The vector `X.T @ W @ y` of `_weighted_least_squares`:
entry `i` is `∑ r, X[r][i] * w[r] * y[r]`. -/
def normalVector (X : List (List ℚ)) (w y : List ℚ) : Fin (ncols X) → ℚ :=
  fun i => ∑ r ∈ Finset.range X.length,
    (X.getD r []).getD i 0 * w.getD r 0 * y.getD r 0

/-- `_weighted_least_squares(y, X, w)`: forms `A = X.T @ W @ X` and
`b = X.T @ W @ y` and returns `scipy.linalg.solve(A, b)`.  The matrix
products raise numpy's shape error when `w` or `y` does not match the row
count of `X`; `la.solve` raises `LinAlgError` when `A` is singular and
otherwise returns the unique solution, here written with Cramer's rule. -/
def _weighted_least_squares (y : List ℚ) (X : List (List ℚ)) (w : List ℚ) :
    Except PyErr (List ℚ) :=
  if y.length = X.length ∧ w.length = X.length then
    if (normalMatrix X w).det = 0 then .error .singularMatrix
    else
      .ok (List.ofFn (fun i =>
        ((normalMatrix X w).det)⁻¹ *
          Matrix.cramer (normalMatrix X w) (normalVector X w y) i))
  else .error .shapeMismatch

/-- `_polynomial(x, degree)`: the design matrix
`np.array([x**p for p in range(degree + 1)]).T`, stored by rows after the
transpose, so row `i` is `[x_i^0, ..., x_i^degree]`. -/
def _polynomial (x : List ℚ) (degree : ℕ) : List (List ℚ) :=
  x.map (fun xi => (List.range (degree + 1)).map (fun p => xi ^ p))

/-- The state a `KernelSmoother` object holds after `__init__`: copies of
the sample arrays, the kernel callable, the bandwidth and the degree. -/
structure KernelSmoother where
  x : List ℚ
  y : List ℚ
  kernel : ℚ → ℚ
  bandwidth : ℚ
  degree : ℕ

/-- `KernelSmoother.__init__`: stores `np.array(x)`, `np.array(y)` and the
hyperparameters.  The body performs no validation of any kind, so no
exception can be raised: the result is always `ok`. -/
def KernelSmoother.init (x y : List ℚ) (kernel : ℚ → ℚ) (bandwidth : ℚ)
    (degree : ℕ) : Except PyErr KernelSmoother :=
  .ok ⟨x, y, kernel, bandwidth, degree⟩

/-- `KernelSmoother._design(x)`: `_polynomial(self._x - x, self._d)`. -/
def KernelSmoother._design (s : KernelSmoother) (q : ℚ) : List (List ℚ) :=
  _polynomial (s.x.map (fun xi => xi - q)) s.degree

/-- `KernelSmoother._weights(x)`: `z = (self._x - x) / self._h` followed by
`self._kernel(z) / self._h`, element-wise over the training inputs. -/
def KernelSmoother._weights (s : KernelSmoother) (q : ℚ) : List ℚ :=
  (s.x.map (fun xi => xi - q)).map
    (fun z => s.kernel (z / s.bandwidth) / s.bandwidth)

/-- The body of the `__call__` loop for one query point `xnew[i]`: build
the design matrix and the weights, solve the weighted least squares
problem, and keep coefficient `[0]` (`IndexError` if the coefficient
vector were empty). -/
def KernelSmoother.evalAt (s : KernelSmoother) (q : ℚ) : Except PyErr ℚ := do
  let beta ← _weighted_least_squares s.y (s._design q) (s._weights q)
  match beta with
  | [] => .error .indexError
  | b :: _ => .ok b

/-- `KernelSmoother.__call__(xnew)`: one pass over the query points in
input order, filling `ynew`; an exception raised at any query point aborts
the whole call. -/
def KernelSmoother.call (s : KernelSmoother) (xnew : List ℚ) :
    Except PyErr (List ℚ) :=
  mapExcept s.evalAt xnew

/-- `smooth(x, y, xnew, kernel, bandwidth, degree)`: construct a
`KernelSmoother` and evaluate it. -/
def smooth (x y xnew : List ℚ) (kernel : ℚ → ℚ) (bandwidth : ℚ)
    (degree : ℕ) : Except PyErr (List ℚ) := do
  let yhat ← KernelSmoother.init x y kernel bandwidth degree
  yhat.call xnew

/-- `loo_estimates(x, y, kernel, bandwidth, degree)`: for each `i`, smooth
with the `i`-th sample held out (`x[~holdout]`, `y[~holdout]`) and evaluate
at `x[holdout] = [x_i]`.  The boolean mask has length `len(x)`, so applying
it to `y` raises `IndexError` inside the iteration when the lengths differ;
storing the 1-element result into `yhat[i]` requires exactly one value. -/
def loo_estimates (x y : List ℚ) (kernel : ℚ → ℚ) (bandwidth : ℚ)
    (degree : ℕ) : Except PyErr (List ℚ) :=
  mapExcept (fun i =>
    if y.length = x.length then do
      let r ← smooth (x.eraseIdx i) (y.eraseIdx i) [x.getD i 0]
        kernel bandwidth degree
      match r with
      | [v] => .ok v
      | _ => .error .valueError
    else .error .indexError) (List.range x.length)

/-- The body of the bandwidth loop in `estimate_bandwidth`:
`yhat = loo_estimates(...)` followed by `np.mean((y - yhat)**2)` (numpy
raises its shape error when `y` and `yhat` have different lengths). -/
def loo_mse (x y : List ℚ) (kernel : ℚ → ℚ) (bandwidth : ℚ)
    (degree : ℕ) : Except PyErr ℚ := do
  let yhat ← loo_estimates x y kernel bandwidth degree
  if y.length = yhat.length then
    .ok ((List.zipWith (fun a b => (a - b) ^ 2) y yhat).sum / (y.length : ℚ))
  else .error .shapeMismatch

/-- `np.argmin` on a list: index of the first occurrence of the minimum.
`argminAux best bestv i l` scans `l`, whose head sits at global index `i`,
carrying the best index and value seen so far; a strictly smaller value is
required to displace the incumbent, so ties keep the earliest index. -/
def argminAux (best : ℕ) (bestv : ℚ) (i : ℕ) : List ℚ → ℕ
  | [] => best
  | v :: vs =>
    if v < bestv then argminAux i v (i + 1) vs
    else argminAux best bestv (i + 1) vs

/-- `np.argmin(mse)`: `none` models the `ValueError` numpy raises on an
empty array. -/
def argmin : List ℚ → Option ℕ
  | [] => none
  | v :: vs => some (argminAux 0 v 1 vs)

/-- `estimate_bandwidth(x, y, kernel, bandwidths, degree)`: fill the `mse`
array with the leave-one-out mean squared error of each candidate, then
return `bandwidths[np.argmin(mse)]`. -/
def estimate_bandwidth (x y : List ℚ) (kernel : ℚ → ℚ)
    (bandwidths : List ℚ) (degree : ℕ) : Except PyErr ℚ := do
  let mse ← mapExcept (fun h => loo_mse x y kernel h degree) bandwidths
  match argmin mse with
  | none => .error .valueError
  | some i => .ok (bandwidths.getD i 0)

/-- `box_kernel(x)`: `np.where(np.abs(x) < 1.0, 0.5, 0.0)`, element-wise
over real inputs. -/
noncomputable def box_kernel (z : ℝ) : ℝ :=
  if |z| < 1 then 0.5 else 0

/-- `gaussian_kernel(x)`: `np.exp(-x**2)`, element-wise over real inputs. -/
noncomputable def gaussian_kernel (z : ℝ) : ℝ :=
  Real.exp (-z ^ 2)

/-- Spec-side matrix of the normal equations at query point `q`: entry
`(i, k)` of `XᵗWX` where column `p` of `X` holds the powers `(x_r - q)^p`,
`p = 0..d`, and `W` is the diagonal matrix of the kernel weights
`kernel((x_r - q)/h)/h`.  Written directly from the specification text for
comparison against the code path. -/
def specNormalA (s : KernelSmoother) (q : ℚ) (i k : ℕ) : ℚ :=
  ∑ r ∈ Finset.range s.x.length,
    (s.x.getD r 0 - q) ^ i *
      (s.kernel ((s.x.getD r 0 - q) / s.bandwidth) / s.bandwidth) *
      (s.x.getD r 0 - q) ^ k

/-- Spec-side right-hand side of the normal equations at `q`: entry `i` of
`XᵗWy`, with `X` and `W` as in `specNormalA`. -/
def specNormalB (s : KernelSmoother) (q : ℚ) (i : ℕ) : ℚ :=
  ∑ r ∈ Finset.range s.x.length,
    (s.x.getD r 0 - q) ^ i *
      (s.kernel ((s.x.getD r 0 - q) / s.bandwidth) / s.bandwidth) *
      s.y.getD r 0

/-! Basic lemmas about `mapExcept`. -/

lemma error_bind {α β : Type} (e : PyErr) (g : α → Except PyErr β) :
    (Except.error e >>= g) = Except.error e := rfl

lemma ok_bind {α β : Type} (a : α) (g : α → Except PyErr β) :
    (Except.ok a >>= g) = g a := rfl

lemma mapExcept_ok_length {α β : Type} (f : α → Except PyErr β) :
    ∀ (l : List α) (out : List β), mapExcept f l = .ok out → out.length = l.length := by
  intro l
  induction l with
  | nil => intro out h; simp [mapExcept] at h; simp [← h]
  | cons a as ih =>
    intro out h
    cases hfa : f a with
    | error e => simp [mapExcept, hfa, error_bind] at h
    | ok b =>
      cases hrest : mapExcept f as with
      | error e => simp [mapExcept, hfa, hrest, ok_bind, error_bind] at h
      | ok bs =>
        simp [mapExcept, hfa, hrest, ok_bind, error_bind] at h
        subst h
        simp [ih bs hrest]

lemma mapExcept_ok_getD {α β : Type} (f : α → Except PyErr β) (da : α) (db : β) :
    ∀ (l : List α) (out : List β), mapExcept f l = .ok out →
      ∀ i < l.length, f (l.getD i da) = .ok (out.getD i db) := by
  intro l
  induction l with
  | nil => intro out _ i hi; simp at hi
  | cons a as ih =>
    intro out h i hi
    cases hfa : f a with
    | error e => simp [mapExcept, hfa, error_bind] at h
    | ok b =>
      cases hrest : mapExcept f as with
      | error e => simp [mapExcept, hfa, hrest, ok_bind, error_bind] at h
      | ok bs =>
        simp [mapExcept, hfa, hrest, ok_bind, error_bind] at h
        subst h
        cases i with
        | zero => simpa using hfa
        | succ j =>
          simp only [List.getD_cons_succ]
          exact ih bs hrest j (by simpa using hi)

lemma mapExcept_ok_of_forall {α β : Type} (f : α → Except PyErr β) (g : α → β) :
    ∀ l : List α, (∀ a ∈ l, f a = .ok (g a)) → mapExcept f l = .ok (l.map g) := by
  intro l
  induction l with
  | nil => intro _; simp [mapExcept]
  | cons a as ih =>
    intro h
    have ha : f a = .ok (g a) := h a (by simp)
    have has : mapExcept f as = .ok (as.map g) :=
      ih (fun b hb => h b (by simp [hb]))
    simp [mapExcept, ha, has, ok_bind]

lemma mapExcept_error_of_mem {α β : Type} (f : α → Except PyErr β) (e : PyErr) :
    ∀ l : List α, (∀ a ∈ l, f a = .error e ∨ ∃ b, f a = .ok b) →
      (∃ a ∈ l, f a = .error e) → mapExcept f l = .error e := by
  intro l
  induction l with
  | nil => intro _ hsome; simp at hsome
  | cons a as ih =>
    intro hall hsome
    rcases hall a (by simp) with ha | ⟨b, hb⟩
    · simp [mapExcept, ha, error_bind]
    · have : ∃ c ∈ as, f c = .error e := by
        rcases hsome with ⟨c, hc, hce⟩
        rcases List.mem_cons.mp hc with rfl | hcas
        · rw [hb] at hce; cases hce
        · exact ⟨c, hcas, hce⟩
      have has : mapExcept f as = .error e :=
        ih (fun c hc => hall c (by simp [hc])) this
      simp [mapExcept, hb, has, ok_bind, error_bind]

/-! Lemmas about `_weighted_least_squares`. -/

lemma wls_shape_error (y : List ℚ) (X : List (List ℚ)) (w : List ℚ)
    (h : ¬(y.length = X.length ∧ w.length = X.length)) :
    _weighted_least_squares y X w = .error .shapeMismatch := by
  unfold _weighted_least_squares
  rw [if_neg h]

lemma wls_singular (y : List ℚ) (X : List (List ℚ)) (w : List ℚ)
    (hs : y.length = X.length ∧ w.length = X.length)
    (hdet : (normalMatrix X w).det = 0) :
    _weighted_least_squares y X w = .error .singularMatrix := by
  unfold _weighted_least_squares
  rw [if_pos hs, if_pos hdet]

lemma wls_ok_of (y : List ℚ) (X : List (List ℚ)) (w : List ℚ)
    (hs : y.length = X.length ∧ w.length = X.length)
    (hdet : (normalMatrix X w).det ≠ 0) :
    _weighted_least_squares y X w =
      .ok (List.ofFn (fun i =>
        ((normalMatrix X w).det)⁻¹ *
          Matrix.cramer (normalMatrix X w) (normalVector X w y) i)) := by
  unfold _weighted_least_squares
  rw [if_pos hs, if_neg hdet]

lemma wls_ok_elim (y : List ℚ) (X : List (List ℚ)) (w : List ℚ)
    (out : List ℚ) (h : _weighted_least_squares y X w = .ok out) :
    y.length = X.length ∧ w.length = X.length ∧
      (normalMatrix X w).det ≠ 0 ∧
      out = List.ofFn (fun i =>
        ((normalMatrix X w).det)⁻¹ *
          Matrix.cramer (normalMatrix X w) (normalVector X w y) i) := by
  unfold _weighted_least_squares at h
  by_cases hs : y.length = X.length ∧ w.length = X.length
  · rw [if_pos hs] at h
    by_cases hdet : (normalMatrix X w).det = 0
    · rw [if_pos hdet] at h; cases h
    · rw [if_neg hdet] at h
      exact ⟨hs.1, hs.2, hdet, (Except.ok.inj h).symm⟩
  · rw [if_neg hs] at h; cases h

/-! The solver branch really solves the normal equations. -/

lemma solve_mulVec {m : ℕ} (A : Matrix (Fin m) (Fin m) ℚ) (b : Fin m → ℚ)
    (hdet : A.det ≠ 0) :
    A.mulVec (fun i => A.det⁻¹ * Matrix.cramer A b i) = b := by
  have h1 : (fun i => A.det⁻¹ * Matrix.cramer A b i) =
      A.det⁻¹ • (Matrix.cramer A b : Fin m → ℚ) := rfl
  rw [h1, Matrix.mulVec_smul, Matrix.mulVec_cramer, smul_smul,
    inv_mul_cancel₀ hdet, one_smul]

lemma solve_unique {m : ℕ} (A : Matrix (Fin m) (Fin m) ℚ) (b v : Fin m → ℚ)
    (hdet : A.det ≠ 0) (hv : A.mulVec v = b) :
    v = fun i => A.det⁻¹ * Matrix.cramer A b i := by
  have h2 : Matrix.cramer A b = A.det • v := by
    rw [Matrix.cramer_eq_adjugate_mulVec, ← hv, Matrix.mulVec_mulVec,
      Matrix.adjugate_mul, Matrix.smul_mulVec_assoc, Matrix.one_mulVec]
  funext i
  have := congrFun h2 i
  simp only [Pi.smul_apply, smul_eq_mul] at this
  rw [this, ← mul_assoc, inv_mul_cancel₀ hdet, one_mul]

/-! List indexing helpers. -/

lemma getD_map {α β : Type} (f : α → β) (l : List α) (i : ℕ)
    (hi : i < l.length) (d : β) (d0 : α) :
    (l.map f).getD i d = f (l.getD i d0) := by
  rw [List.getD_eq_getElem _ _ (by simpa using hi), List.getD_eq_getElem _ _ hi]
  simp

lemma sum_range_getD (l : List ℚ) :
    ∑ r ∈ Finset.range l.length, l.getD r 0 = l.sum := by
  induction l with
  | nil => simp
  | cons a t ih =>
    rw [List.length_cons, Finset.sum_range_succ']
    simp only [List.getD_cons_succ, List.getD_cons_zero, List.sum_cons]
    rw [ih, add_comm]

/-! The design matrix and the weight vector, entry by entry. -/

lemma design_length (s : KernelSmoother) (q : ℚ) :
    (s._design q).length = s.x.length := by
  simp [KernelSmoother._design, _polynomial]

lemma weights_length (s : KernelSmoother) (q : ℚ) :
    (s._weights q).length = s.x.length := by
  simp [KernelSmoother._weights]

lemma ncols_design (s : KernelSmoother) (q : ℚ) (hx : s.x ≠ []) :
    ncols (s._design q) = s.degree + 1 := by
  cases hxl : s.x with
  | nil => exact absurd hxl hx
  | cons a t => simp [ncols, KernelSmoother._design, _polynomial, hxl]

lemma design_entry (s : KernelSmoother) (q : ℚ) (r i : ℕ)
    (hr : r < s.x.length) (hi : i < s.degree + 1) :
    ((s._design q).getD r []).getD i 0 = (s.x.getD r 0 - q) ^ i := by
  unfold KernelSmoother._design _polynomial
  rw [getD_map (fun v => (List.range (s.degree + 1)).map (fun p => v ^ p))
      (s.x.map (fun xi => xi - q)) r (by simpa using hr) [] 0,
    getD_map (fun xi => xi - q) s.x r hr 0 0,
    getD_map (fun p => (s.x.getD r 0 - q) ^ p) (List.range (s.degree + 1)) i
      (by simpa using hi) 0 0,
    List.getD_eq_getElem (List.range (s.degree + 1)) 0 (by simpa using hi)]
  simp

lemma weights_entry (s : KernelSmoother) (q : ℚ) (r : ℕ)
    (hr : r < s.x.length) :
    (s._weights q).getD r 0 =
      s.kernel ((s.x.getD r 0 - q) / s.bandwidth) / s.bandwidth := by
  unfold KernelSmoother._weights
  rw [getD_map _ _ r (by simpa using hr) 0 0, getD_map _ _ r hr 0 0]

/-! The code-side normal equations coincide with the spec-side ones. -/

lemma normalMatrix_design (s : KernelSmoother) (q : ℚ) (hx : s.x ≠ [])
    (i j : Fin (ncols (s._design q))) :
    normalMatrix (s._design q) (s._weights q) i j = specNormalA s q i j := by
  unfold normalMatrix specNormalA
  rw [design_length]
  refine Finset.sum_congr rfl ?_
  intro r hr
  have hrx : r < s.x.length := Finset.mem_range.mp hr
  have hi : (i : ℕ) < s.degree + 1 := (ncols_design s q hx) ▸ i.isLt
  have hj : (j : ℕ) < s.degree + 1 := (ncols_design s q hx) ▸ j.isLt
  rw [design_entry s q r i hrx hi, design_entry s q r j hrx hj,
    weights_entry s q r hrx]

lemma normalVector_design (s : KernelSmoother) (q : ℚ) (hx : s.x ≠ [])
    (i : Fin (ncols (s._design q))) :
    normalVector (s._design q) (s._weights q) s.y i = specNormalB s q i := by
  unfold normalVector specNormalB
  rw [design_length]
  refine Finset.sum_congr rfl ?_
  intro r hr
  have hrx : r < s.x.length := Finset.mem_range.mp hr
  have hi : (i : ℕ) < s.degree + 1 := (ncols_design s q hx) ▸ i.isLt
  rw [design_entry s q r i hrx hi, weights_entry s q r hrx]

/-! Evaluation at a single query point. -/

lemma evalAt_ok_elim (s : KernelSmoother) (q : ℚ) (v : ℚ)
    (h : s.evalAt q = .ok v) :
    ∃ t, _weighted_least_squares s.y (s._design q) (s._weights q) =
      .ok (v :: t) := by
  unfold KernelSmoother.evalAt at h
  cases hw : _weighted_least_squares s.y (s._design q) (s._weights q) with
  | error e => rw [hw] at h; simp [error_bind] at h
  | ok out =>
    rw [hw] at h
    cases out with
    | nil => simp [ok_bind] at h
    | cons b t =>
      simp only [ok_bind] at h
      exact ⟨t, by rw [Except.ok.inj h]⟩

/-- At a query point where evaluation succeeds, the returned value is the
intercept `beta[0]` of the unique solution of the spec-side normal
equations `(XᵗWX)β = XᵗWy`. -/
lemma evalAt_normal_equations (s : KernelSmoother) (q : ℚ) (v : ℚ)
    (hlen : s.y.length = s.x.length) (hx : s.x ≠ [])
    (h : s.evalAt q = .ok v) :
    ∃ beta : List ℚ, beta.length = s.degree + 1 ∧
      (∀ i < s.degree + 1,
        ∑ k ∈ Finset.range (s.degree + 1),
          specNormalA s q i k * beta.getD k 0 = specNormalB s q i) ∧
      v = beta.getD 0 0 ∧
      ∀ beta' : List ℚ, beta'.length = s.degree + 1 →
        (∀ i < s.degree + 1,
          ∑ k ∈ Finset.range (s.degree + 1),
            specNormalA s q i k * beta'.getD k 0 = specNormalB s q i) →
        beta' = beta := by
  obtain ⟨t, hw⟩ := evalAt_ok_elim s q v h
  obtain ⟨hy, hwl, hdet, hout⟩ := wls_ok_elim _ _ _ _ hw
  have hm : ncols (s._design q) = s.degree + 1 := ncols_design s q hx
  have hsolve := solve_mulVec (normalMatrix (s._design q) (s._weights q))
    (normalVector (s._design q) (s._weights q) s.y) hdet
  have hlenout : (v :: t).length = s.degree + 1 := by
    rw [hout, List.length_ofFn, hm]
  have hgetb : ∀ k : Fin (ncols (s._design q)),
      (v :: t).getD (k : ℕ) 0 =
        ((normalMatrix (s._design q) (s._weights q)).det)⁻¹ *
          Matrix.cramer (normalMatrix (s._design q) (s._weights q))
            (normalVector (s._design q) (s._weights q) s.y) k := by
    intro k
    rw [hout, List.getD_eq_getElem _ _ (by simp)]
    simp
  refine ⟨v :: t, hlenout, ?_, by simp, ?_⟩
  · intro i hi
    have him : i < ncols (s._design q) := by rw [hm]; exact hi
    calc ∑ k ∈ Finset.range (s.degree + 1),
          specNormalA s q i k * (v :: t).getD k 0
        = ∑ k ∈ Finset.range (ncols (s._design q)),
            specNormalA s q i k * (v :: t).getD k 0 := by rw [hm]
      _ = ∑ k : Fin (ncols (s._design q)),
            specNormalA s q i (k : ℕ) * (v :: t).getD (k : ℕ) 0 :=
          (Fin.sum_univ_eq_sum_range
            (fun k => specNormalA s q i k * (v :: t).getD k 0) _).symm
      _ = ∑ k : Fin (ncols (s._design q)),
            normalMatrix (s._design q) (s._weights q) ⟨i, him⟩ k *
              (((normalMatrix (s._design q) (s._weights q)).det)⁻¹ *
                Matrix.cramer (normalMatrix (s._design q) (s._weights q))
                  (normalVector (s._design q) (s._weights q) s.y) k) := by
          refine Finset.sum_congr rfl (fun k _ => ?_)
          rw [normalMatrix_design s q hx ⟨i, him⟩ k, hgetb k]
      _ = (normalMatrix (s._design q) (s._weights q)).mulVec
            (fun k => ((normalMatrix (s._design q) (s._weights q)).det)⁻¹ *
              Matrix.cramer (normalMatrix (s._design q) (s._weights q))
                (normalVector (s._design q) (s._weights q) s.y) k)
            ⟨i, him⟩ := by
          simp [Matrix.mulVec, Matrix.dotProduct]
      _ = normalVector (s._design q) (s._weights q) s.y ⟨i, him⟩ := by
          rw [hsolve]
      _ = specNormalB s q i := normalVector_design s q hx ⟨i, him⟩
  · intro beta' hlen' heq'
    have hu : (normalMatrix (s._design q) (s._weights q)).mulVec
        (fun k => beta'.getD (k : ℕ) 0) =
        normalVector (s._design q) (s._weights q) s.y := by
      funext i'
      calc (normalMatrix (s._design q) (s._weights q)).mulVec
            (fun k => beta'.getD (k : ℕ) 0) i'
          = ∑ k : Fin (ncols (s._design q)),
              normalMatrix (s._design q) (s._weights q) i' k *
                beta'.getD (k : ℕ) 0 := by
            simp [Matrix.mulVec, Matrix.dotProduct]
        _ = ∑ k : Fin (ncols (s._design q)),
              specNormalA s q (i' : ℕ) (k : ℕ) * beta'.getD (k : ℕ) 0 := by
            refine Finset.sum_congr rfl (fun k _ => ?_)
            rw [normalMatrix_design s q hx i' k]
        _ = ∑ k ∈ Finset.range (ncols (s._design q)),
              specNormalA s q (i' : ℕ) k * beta'.getD k 0 :=
            Fin.sum_univ_eq_sum_range
              (fun k => specNormalA s q (i' : ℕ) k * beta'.getD k 0) _
        _ = specNormalB s q (i' : ℕ) := by
            have hrange : Finset.range (ncols (s._design q)) =
                Finset.range (s.degree + 1) := by rw [hm]
            rw [hrange]
            exact heq' (i' : ℕ) (by rw [← hm]; exact i'.isLt)
        _ = normalVector (s._design q) (s._weights q) s.y i' :=
            (normalVector_design s q hx i').symm
    have huniq := solve_unique (normalMatrix (s._design q) (s._weights q))
      (normalVector (s._design q) (s._weights q) s.y)
      (fun k => beta'.getD (k : ℕ) 0) hdet hu
    apply List.ext_getElem (by rw [hlen', hlenout])
    intro k hk1 hk2
    have hkm : k < ncols (s._design q) := by
      rw [hm, ← hlen']; exact hk1
    have h1 : beta'.getD k 0 = beta'[k] :=
      List.getD_eq_getElem beta' 0 hk1
    have h2 := congrFun huniq ⟨k, hkm⟩
    simp only at h2
    rw [← h1, h2]
    rw [← hgetb ⟨k, hkm⟩]
    exact List.getD_eq_getElem (v :: t) 0 hk2

/-! Helpers for systems whose (propositionally known) size is one. -/

lemma det_dim_one {m : ℕ} (hm : m = 1) (h0 : 0 < m)
    (A : Matrix (Fin m) (Fin m) ℚ) : A.det = A ⟨0, h0⟩ ⟨0, h0⟩ := by
  subst hm
  exact Matrix.det_eq_elem_of_subsingleton A _

lemma cramer_dim_one {m : ℕ} (hm : m = 1)
    (A : Matrix (Fin m) (Fin m) ℚ) (b : Fin m → ℚ) (i : Fin m) :
    Matrix.cramer A b i = b i := by
  subst hm
  exact Matrix.cramer_subsingleton_apply A b i

lemma ofFn_dim_one {m : ℕ} (hm : m = 1) (h0 : 0 < m) (f : Fin m → ℚ) :
    List.ofFn f = [f ⟨0, h0⟩] := by
  subst hm
  simp [List.ofFn_succ]

lemma wls_dim_one (y : List ℚ) (X : List (List ℚ)) (w : List ℚ)
    (hm : ncols X = 1) (hy : y.length = X.length) (hw : w.length = X.length)
    (ha : (∑ r ∈ Finset.range X.length,
      (X.getD r []).getD 0 0 * w.getD r 0 * (X.getD r []).getD 0 0) ≠ 0) :
    _weighted_least_squares y X w =
      .ok [(∑ r ∈ Finset.range X.length,
          (X.getD r []).getD 0 0 * w.getD r 0 * (X.getD r []).getD 0 0)⁻¹ *
        ∑ r ∈ Finset.range X.length,
          (X.getD r []).getD 0 0 * w.getD r 0 * y.getD r 0] := by
  have h0 : 0 < ncols X := by omega
  have hA : (normalMatrix X w).det =
      ∑ r ∈ Finset.range X.length,
        (X.getD r []).getD 0 0 * w.getD r 0 * (X.getD r []).getD 0 0 := by
    rw [det_dim_one hm h0]
    rfl
  rw [wls_ok_of y X w ⟨hy, hw⟩ (by rw [hA]; exact ha)]
  rw [ofFn_dim_one hm h0]
  have hv : ((normalMatrix X w).det)⁻¹ *
      Matrix.cramer (normalMatrix X w) (normalVector X w y) ⟨0, h0⟩ =
      (∑ r ∈ Finset.range X.length,
        (X.getD r []).getD 0 0 * w.getD r 0 * (X.getD r []).getD 0 0)⁻¹ *
      ∑ r ∈ Finset.range X.length,
        (X.getD r []).getD 0 0 * w.getD r 0 * y.getD r 0 := by
    rw [hA, cramer_dim_one hm]
    rfl
  rw [hv]

/-- With the constant-1 kernel, degree 0 and a nonzero bandwidth, a single
query point evaluates to the sample mean of `y`, whatever the bandwidth. -/
lemma evalAt_const_one (x y : List ℚ) (hb : ℚ) (q : ℚ)
    (hx : x ≠ []) (hlen : y.length = x.length) (hh : hb ≠ 0) :
    KernelSmoother.evalAt ⟨x, y, fun _ => 1, hb, 0⟩ q =
      .ok (y.sum / (x.length : ℚ)) := by
  have hm : ncols (KernelSmoother._design ⟨x, y, fun _ => 1, hb, 0⟩ q) = 1 :=
    ncols_design ⟨x, y, fun _ => 1, hb, 0⟩ q hx
  have hXlen : (KernelSmoother._design ⟨x, y, fun _ => 1, hb, 0⟩ q).length
      = x.length := design_length _ q
  have hwlen : (KernelSmoother._weights ⟨x, y, fun _ => 1, hb, 0⟩ q).length
      = x.length := weights_length _ q
  have hn0 : (x.length : ℚ) ≠ 0 :=
    Nat.cast_ne_zero.mpr (List.length_pos.mpr hx).ne'
  have hterm : ∀ r ∈ Finset.range
      (KernelSmoother._design ⟨x, y, fun _ => 1, hb, 0⟩ q).length,
      ((KernelSmoother._design ⟨x, y, fun _ => 1, hb, 0⟩ q).getD r []).getD 0 0 *
        (KernelSmoother._weights ⟨x, y, fun _ => 1, hb, 0⟩ q).getD r 0 *
        ((KernelSmoother._design ⟨x, y, fun _ => 1, hb, 0⟩ q).getD r []).getD 0 0
        = 1 / hb := by
    intro r hr
    have hrx : r < x.length := by rw [← hXlen]; exact Finset.mem_range.mp hr
    rw [design_entry ⟨x, y, fun _ => 1, hb, 0⟩ q r 0 hrx (by omega),
      weights_entry ⟨x, y, fun _ => 1, hb, 0⟩ q r hrx]
    simp
  have hterm2 : ∀ r ∈ Finset.range
      (KernelSmoother._design ⟨x, y, fun _ => 1, hb, 0⟩ q).length,
      ((KernelSmoother._design ⟨x, y, fun _ => 1, hb, 0⟩ q).getD r []).getD 0 0 *
        (KernelSmoother._weights ⟨x, y, fun _ => 1, hb, 0⟩ q).getD r 0 *
        y.getD r 0 = (1 / hb) * y.getD r 0 := by
    intro r hr
    have hrx : r < x.length := by rw [← hXlen]; exact Finset.mem_range.mp hr
    rw [design_entry ⟨x, y, fun _ => 1, hb, 0⟩ q r 0 hrx (by omega),
      weights_entry ⟨x, y, fun _ => 1, hb, 0⟩ q r hrx]
    simp
  have ha_eq : (∑ r ∈ Finset.range
      (KernelSmoother._design ⟨x, y, fun _ => 1, hb, 0⟩ q).length,
      ((KernelSmoother._design ⟨x, y, fun _ => 1, hb, 0⟩ q).getD r []).getD 0 0 *
        (KernelSmoother._weights ⟨x, y, fun _ => 1, hb, 0⟩ q).getD r 0 *
        ((KernelSmoother._design ⟨x, y, fun _ => 1, hb, 0⟩ q).getD r []).getD 0 0)
      = (x.length : ℚ) / hb := by
    rw [Finset.sum_congr rfl hterm, Finset.sum_const, Finset.card_range, hXlen,
      nsmul_eq_mul]
    ring
  have hc_eq : (∑ r ∈ Finset.range
      (KernelSmoother._design ⟨x, y, fun _ => 1, hb, 0⟩ q).length,
      ((KernelSmoother._design ⟨x, y, fun _ => 1, hb, 0⟩ q).getD r []).getD 0 0 *
        (KernelSmoother._weights ⟨x, y, fun _ => 1, hb, 0⟩ q).getD r 0 *
        y.getD r 0) = y.sum / hb := by
    rw [Finset.sum_congr rfl hterm2, ← Finset.mul_sum, hXlen, ← hlen,
      sum_range_getD]
    ring
  unfold KernelSmoother.evalAt
  rw [wls_dim_one y _ _ hm (by rw [hXlen]; exact hlen) (by rw [hwlen, hXlen])
    (by rw [ha_eq]; exact div_ne_zero hn0 hh)]
  rw [ha_eq, hc_eq]
  simp only [ok_bind]
  have : ((x.length : ℚ) / hb)⁻¹ * (y.sum / hb) = y.sum / (x.length : ℚ) := by
    field_simp
    ring
  rw [this]

/-- With the constant-1 kernel and degree 0, `__call__` maps every query
point to the sample mean of `y`. -/
lemma call_const_one (x y : List ℚ) (hb : ℚ) (qs : List ℚ)
    (hx : x ≠ []) (hlen : y.length = x.length) (hh : hb ≠ 0) :
    KernelSmoother.call ⟨x, y, fun _ => 1, hb, 0⟩ qs =
      .ok (qs.map (fun _ => y.sum / (x.length : ℚ))) := by
  unfold KernelSmoother.call
  exact mapExcept_ok_of_forall _ _ qs
    (fun q _ => evalAt_const_one x y hb q hx hlen hh)

/-! Correctness of `argmin`: first index attaining the minimum. -/

lemma argminAux_spec (vs : List ℚ) : ∀ (best : ℕ) (bestv : ℚ) (i : ℕ),
    (argminAux best bestv i vs = best ∧
      ∀ k < vs.length, bestv ≤ vs.getD k 0) ∨
    (∃ t, t < vs.length ∧ argminAux best bestv i vs = i + t ∧
      vs.getD t 0 < bestv ∧
      (∀ k < vs.length, vs.getD t 0 ≤ vs.getD k 0) ∧
      (∀ k < t, vs.getD t 0 < vs.getD k 0)) := by
  induction vs with
  | nil =>
    intro best bestv i
    left
    exact ⟨rfl, by simp⟩
  | cons v vs ih =>
    intro best bestv i
    by_cases hv : v < bestv
    · have hstep : argminAux best bestv i (v :: vs) = argminAux i v (i + 1) vs := by
        simp [argminAux, hv]
      rcases ih i v (i + 1) with ⟨h1, h2⟩ | ⟨t, ht, h1, h2, h3, h4⟩
      · right
        refine ⟨0, by simp, by rw [hstep, h1, Nat.add_zero], by simpa using hv, ?_, by omega⟩
        intro k hk
        cases k with
        | zero => simp
        | succ k' =>
          simp only [List.getD_cons_zero, List.getD_cons_succ]
          exact h2 k' (by simpa using hk)
      · right
        refine ⟨t + 1, by simpa using ht, by rw [hstep, h1]; omega, ?_, ?_, ?_⟩
        · simp only [List.getD_cons_succ]
          exact lt_trans h2 hv
        · intro k hk
          cases k with
          | zero =>
            simp only [List.getD_cons_succ, List.getD_cons_zero]
            exact le_of_lt h2
          | succ k' =>
            simp only [List.getD_cons_succ]
            exact h3 k' (by simpa using hk)
        · intro k hk
          cases k with
          | zero =>
            simp only [List.getD_cons_succ, List.getD_cons_zero]
            exact h2
          | succ k' =>
            simp only [List.getD_cons_succ]
            exact h4 k' (by omega)
    · have hstep : argminAux best bestv i (v :: vs) =
          argminAux best bestv (i + 1) vs := by
        simp [argminAux, hv]
      rcases ih best bestv (i + 1) with ⟨h1, h2⟩ | ⟨t, ht, h1, h2, h3, h4⟩
      · left
        refine ⟨by rw [hstep, h1], ?_⟩
        intro k hk
        cases k with
        | zero => simpa using not_lt.mp hv
        | succ k' =>
          simp only [List.getD_cons_succ]
          exact h2 k' (by simpa using hk)
      · right
        refine ⟨t + 1, by simpa using ht, by rw [hstep, h1]; omega, ?_, ?_, ?_⟩
        · simp only [List.getD_cons_succ]
          exact h2
        · intro k hk
          cases k with
          | zero =>
            simp only [List.getD_cons_succ, List.getD_cons_zero]
            exact le_of_lt (lt_of_lt_of_le h2 (not_lt.mp hv))
          | succ k' =>
            simp only [List.getD_cons_succ]
            exact h3 k' (by simpa using hk)
        · intro k hk
          cases k with
          | zero =>
            simp only [List.getD_cons_succ, List.getD_cons_zero]
            exact lt_of_lt_of_le h2 (not_lt.mp hv)
          | succ k' =>
            simp only [List.getD_cons_succ]
            exact h4 k' (by omega)

lemma argmin_spec (l : List ℚ) (hl : l ≠ []) :
    ∃ j, argmin l = some j ∧ j < l.length ∧
      (∀ k < l.length, l.getD j 0 ≤ l.getD k 0) ∧
      (∀ k < j, l.getD j 0 < l.getD k 0) := by
  cases l with
  | nil => exact absurd rfl hl
  | cons v vs =>
    rcases argminAux_spec vs 0 v 1 with ⟨h1, h2⟩ | ⟨t, ht, h1, h2, h3, h4⟩
    · refine ⟨0, by simp [argmin, h1], by simp, ?_, by omega⟩
      intro k hk
      cases k with
      | zero => simp
      | succ k' =>
        simp only [List.getD_cons_zero, List.getD_cons_succ]
        exact h2 k' (by simpa using hk)
    · refine ⟨1 + t, by simp [argmin, h1], by simp; omega, ?_, ?_⟩
      · intro k hk
        have h1t : 1 + t = t + 1 := by omega
        rw [h1t]
        cases k with
        | zero =>
          simp only [List.getD_cons_succ, List.getD_cons_zero]
          exact le_of_lt h2
        | succ k' =>
          simp only [List.getD_cons_succ]
          exact h3 k' (by simpa using hk)
      · intro k hk
        have h1t : 1 + t = t + 1 := by omega
        rw [h1t]
        cases k with
        | zero =>
          simp only [List.getD_cons_succ, List.getD_cons_zero]
          exact h2
        | succ k' =>
          simp only [List.getD_cons_succ]
          exact h4 k' (by omega)

/-! Mean squared error as an indexed sum. -/

lemma zipWith_sq_sum (y z : List ℚ) (h : y.length = z.length) :
    (List.zipWith (fun a b => (a - b) ^ 2) y z).sum =
      ∑ i ∈ Finset.range y.length, (y.getD i 0 - z.getD i 0) ^ 2 := by
  induction y generalizing z with
  | nil => simp
  | cons a t ih =>
    cases z with
    | nil => simp at h
    | cons b u =>
      simp only [List.zipWith_cons_cons, List.sum_cons, List.length_cons]
      rw [Finset.sum_range_succ']
      simp only [List.getD_cons_succ, List.getD_cons_zero]
      rw [ih u (by simpa using h)]
      ring

/-! Either a query point yields a singular system and the solver raises, or
it succeeds with a value; with matching sample lengths no other error can
occur. -/

lemma evalAt_cases (s : KernelSmoother) (q : ℚ)
    (hlen : s.y.length = s.x.length) (hx : s.x ≠ []) :
    ((normalMatrix (s._design q) (s._weights q)).det = 0 ∧
      s.evalAt q = .error .singularMatrix) ∨
    ((normalMatrix (s._design q) (s._weights q)).det ≠ 0 ∧
      ∃ v, s.evalAt q = .ok v) := by
  by_cases hd : (normalMatrix (s._design q) (s._weights q)).det = 0
  · left
    refine ⟨hd, ?_⟩
    unfold KernelSmoother.evalAt
    rw [wls_singular _ _ _ ⟨by rw [design_length]; exact hlen,
      by rw [design_length, weights_length]⟩ hd]
    rfl
  · right
    refine ⟨hd, ?_⟩
    unfold KernelSmoother.evalAt
    rw [wls_ok_of _ _ _ ⟨by rw [design_length]; exact hlen,
      by rw [design_length, weights_length]⟩ hd]
    have hm := ncols_design s q hx
    cases hl : List.ofFn (fun i =>
        ((normalMatrix (s._design q) (s._weights q)).det)⁻¹ *
          Matrix.cramer (normalMatrix (s._design q) (s._weights q))
            (normalVector (s._design q) (s._weights q) s.y) i) with
    | nil =>
      exfalso
      have := congrArg List.length hl
      rw [List.length_ofFn, hm] at this
      simp at this
    | cons b tl => exact ⟨b, by simp [ok_bind]⟩

/-! A kernel that is identically zero produces an all-zero normal matrix,
hence a singular system at every query point. -/

lemma zero_kernel_det (q : ℚ) :
    (normalMatrix (KernelSmoother._design ⟨[0], [1], fun _ => 0, 1, 0⟩ q)
      (KernelSmoother._weights ⟨[0], [1], fun _ => 0, 1, 0⟩ q)).det = 0 := by
  have hx : (KernelSmoother.mk [0] [1] (fun _ => 0) 1 0).x ≠ [] := by simp
  have hm : ncols (KernelSmoother._design ⟨[0], [1], fun _ => 0, 1, 0⟩ q) = 1 :=
    ncols_design _ q hx
  rw [det_dim_one hm (by omega)]
  refine Finset.sum_eq_zero ?_
  intro r hr
  have hrx : r < ([0] : List ℚ).length := by
    have := Finset.mem_range.mp hr
    rwa [design_length] at this
  rw [weights_entry ⟨[0], [1], fun _ => 0, 1, 0⟩ q r hrx]
  simp

lemma zero_kernel_call (q : ℚ) :
    KernelSmoother.call ⟨[0], [1], fun _ => 0, 1, 0⟩ [q] =
      .error .singularMatrix := by
  have hev : KernelSmoother.evalAt ⟨[0], [1], fun _ => 0, 1, 0⟩ q =
      .error .singularMatrix := by
    rcases evalAt_cases ⟨[0], [1], fun _ => 0, 1, 0⟩ q rfl (by simp) with
      ⟨_, h⟩ | ⟨hd, _⟩
    · exact h
    · exact absurd (zero_kernel_det q) hd
  unfold KernelSmoother.call
  simp [mapExcept, hev, error_bind]

/-! Claim theorems. -/

/-- C1: for a smoother over equal-length samples with positive bandwidth,
a successful evaluation returns one estimate per query point in input
order, and the estimate at query point `q` is `beta[0]` for the unique
coefficient vector `beta` solving the normal equations `(XᵗWX)β = XᵗWy`,
where column `p` of `X` holds the powers `(x_i - q)^p`, `p = 0..d`, and
`W` is the diagonal matrix of the kernel weights at `q`. -/
theorem C1_call_solves_normal_equations (s : KernelSmoother)
    (qs es : List ℚ) (hlen : s.y.length = s.x.length) (hx : s.x ≠ [])
    (hh : 0 < s.bandwidth) (hcall : s.call qs = .ok es) :
    es.length = qs.length ∧
    ∀ j < qs.length, ∃ beta : List ℚ, beta.length = s.degree + 1 ∧
      (∀ i < s.degree + 1,
        ∑ k ∈ Finset.range (s.degree + 1),
          specNormalA s (qs.getD j 0) i k * beta.getD k 0 =
            specNormalB s (qs.getD j 0) i) ∧
      es.getD j 0 = beta.getD 0 0 ∧
      ∀ beta' : List ℚ, beta'.length = s.degree + 1 →
        (∀ i < s.degree + 1,
          ∑ k ∈ Finset.range (s.degree + 1),
            specNormalA s (qs.getD j 0) i k * beta'.getD k 0 =
              specNormalB s (qs.getD j 0) i) →
        beta' = beta := by
  constructor
  · exact mapExcept_ok_length _ _ _ hcall
  · intro j hj
    exact evalAt_normal_equations s (qs.getD j 0) (es.getD j 0) hlen hx
      (mapExcept_ok_getD s.evalAt 0 0 qs es hcall j hj)

/-- C1 witness: the hypotheses and the conclusion of
`C1_call_solves_normal_equations` at a concrete smoother. -/
theorem C1_witness :
    (([0] : List ℚ).length = ([0] : List ℚ).length ∧
      ([0] : List ℚ) ≠ [] ∧ (0 : ℚ) < 1 ∧
      KernelSmoother.call ⟨[0], [0], fun _ => 1, 1, 0⟩ [0] = .ok [0]) ∧
    (([0] : List ℚ).length = ([0] : List ℚ).length ∧
      ∀ j < ([0] : List ℚ).length, ∃ beta : List ℚ, beta.length = 0 + 1 ∧
        (∀ i < 0 + 1,
          ∑ k ∈ Finset.range (0 + 1),
            specNormalA ⟨[0], [0], fun _ => 1, 1, 0⟩
                (([0] : List ℚ).getD j 0) i k * beta.getD k 0 =
              specNormalB ⟨[0], [0], fun _ => 1, 1, 0⟩
                (([0] : List ℚ).getD j 0) i) ∧
        ([0] : List ℚ).getD j 0 = beta.getD 0 0 ∧
        ∀ beta' : List ℚ, beta'.length = 0 + 1 →
          (∀ i < 0 + 1,
            ∑ k ∈ Finset.range (0 + 1),
              specNormalA ⟨[0], [0], fun _ => 1, 1, 0⟩
                  (([0] : List ℚ).getD j 0) i k * beta'.getD k 0 =
                specNormalB ⟨[0], [0], fun _ => 1, 1, 0⟩
                  (([0] : List ℚ).getD j 0) i) →
          beta' = beta) := by
  have hcall : KernelSmoother.call ⟨[0], [0], fun _ => 1, 1, 0⟩ [0] =
      .ok [0] := by
    rw [call_const_one [0] [0] 1 [0] (by simp) rfl one_ne_zero]
    norm_num
  exact ⟨⟨rfl, by simp, by norm_num, hcall⟩,
    C1_call_solves_normal_equations ⟨[0], [0], fun _ => 1, 1, 0⟩ [0] [0]
      rfl (by simp) (by norm_num) hcall⟩

/-- C2: the weight of training point `x_i` at query point `q` is
`kernel((x_i - q) / h) / h`: the kernel is applied to the standardized
distance and the result is divided by the bandwidth once more. -/
theorem C2_weights_formula (s : KernelSmoother) (q : ℚ) :
    (s._weights q).length = s.x.length ∧
    ∀ i < s.x.length,
      (s._weights q).getD i 0 =
        s.kernel ((s.x.getD i 0 - q) / s.bandwidth) / s.bandwidth :=
  ⟨weights_length s q, fun i hi => weights_entry s q i hi⟩

/-- C2 witness: the weight formula evaluated on a concrete smoother. -/
theorem C2_witness :
    (KernelSmoother._weights ⟨[2], [3], fun z => z + 1, 4, 1⟩ 0).length =
      ([2] : List ℚ).length ∧
    (KernelSmoother._weights ⟨[2], [3], fun z => z + 1, 4, 1⟩ 0).getD 0 0 =
      (fun z : ℚ => z + 1) ((([2] : List ℚ).getD 0 0 - 0) / 4) / 4 :=
  ⟨(C2_weights_formula ⟨[2], [3], fun z => z + 1, 4, 1⟩ 0).1,
    (C2_weights_formula ⟨[2], [3], fun z => z + 1, 4, 1⟩ 0).2 0 (by norm_num)⟩

/-- C8: the box kernel returns 0.5 when `|z| < 1` and 0 otherwise, the
Gaussian kernel returns `exp(-z²)`; both are non-negative and the Gaussian
kernel is strictly positive, hence never exactly zero. -/
theorem C8_kernels (z : ℝ) :
    (|z| < 1 → box_kernel z = 0.5) ∧
    (1 ≤ |z| → box_kernel z = 0) ∧
    0 ≤ box_kernel z ∧
    gaussian_kernel z = Real.exp (-z ^ 2) ∧
    0 < gaussian_kernel z := by
  refine ⟨fun h => ?_, fun h => ?_, ?_, rfl, Real.exp_pos _⟩
  · unfold box_kernel
    rw [if_pos h]
  · unfold box_kernel
    rw [if_neg (not_lt.mpr h)]
  · unfold box_kernel
    split <;> norm_num

/-- C8 witness: the kernel formulas evaluated at concrete inputs. -/
theorem C8_witness :
    box_kernel 0 = 0.5 ∧ box_kernel 2 = 0 ∧ 0 < gaussian_kernel 0 :=
  ⟨(C8_kernels 0).1 (by norm_num),
    (C8_kernels 2).2.1 (by rw [abs_of_nonneg]; norm_num; norm_num),
    (C8_kernels 0).2.2.2.2⟩

/-- C9: a degree-0 smoother whose kernel is identically 1 evaluates, at
every query point, to the sample mean of `y`; the result does not depend
on the (positive) bandwidth. -/
theorem C9_const_kernel_gives_mean (x y qs : List ℚ) (hb : ℚ)
    (hx : x ≠ []) (hlen : y.length = x.length) (hh : 0 < hb) :
    KernelSmoother.call ⟨x, y, fun _ => 1, hb, 0⟩ qs =
      .ok (qs.map (fun _ => y.sum / (x.length : ℚ))) :=
  call_const_one x y hb qs hx hlen hh.ne'

/-- C9 witness: concrete degree-0 constant-kernel smoother returning the
mean of `y = [2, 4]` at both query points, with bandwidth 5. -/
theorem C9_witness :
    KernelSmoother.call ⟨[1, 3], [2, 4], fun _ => 1, 5, 0⟩ [0, 7] =
      .ok [3, 3] := by
  rw [C9_const_kernel_gives_mean [1, 3] [2, 4] [0, 7] 5 (by simp) rfl
    (by norm_num)]
  norm_num

/-- C10: `estimate_bandwidth` with an empty candidate list reaches
`np.argmin` on an empty array, which raises, so no bandwidth is ever
returned for an empty candidate list. -/
theorem C10_empty_candidates (x y : List ℚ) (kernel : ℚ → ℚ) (degree : ℕ) :
    estimate_bandwidth x y kernel [] degree = .error .valueError := rfl

/-- C3: when the leave-one-out pass succeeds, estimate `i` is the
evaluation at `x_i` of a smoother built from all samples except index `i`,
and the cross-validation score is the mean of the squared residuals. -/
theorem C3_loo_estimates (x y : List ℚ) (kernel : ℚ → ℚ) (hb : ℚ) (d : ℕ)
    (yhat : List ℚ) (hlen : y.length = x.length)
    (hok : loo_estimates x y kernel hb d = .ok yhat) :
    yhat.length = x.length ∧
    (∀ i < x.length,
      KernelSmoother.call ⟨x.eraseIdx i, y.eraseIdx i, kernel, hb, d⟩
        [x.getD i 0] = .ok [yhat.getD i 0]) ∧
    loo_mse x y kernel hb d =
      .ok ((∑ i ∈ Finset.range x.length,
        (y.getD i 0 - yhat.getD i 0) ^ 2) / (x.length : ℚ)) := by
  have hylen : yhat.length = x.length := by
    have := mapExcept_ok_length _ _ _ hok
    rwa [List.length_range] at this
  refine ⟨hylen, ?_, ?_⟩
  · intro i hi
    have hpt := mapExcept_ok_getD _ 0 0 _ _ hok i
      (by rwa [List.length_range])
    rw [List.getD_eq_getElem _ _ (by rwa [List.length_range]),
      List.getElem_range] at hpt
    rw [if_pos hlen] at hpt
    cases hsm : smooth (x.eraseIdx i) (y.eraseIdx i) [x.getD i 0]
        kernel hb d with
    | error e => rw [hsm] at hpt; simp [error_bind] at hpt
    | ok r =>
      rw [hsm] at hpt
      simp only [ok_bind] at hpt
      cases r with
      | nil => simp at hpt
      | cons v t =>
        cases t with
        | nil =>
          have hv := Except.ok.inj hpt
          have hcall : smooth (x.eraseIdx i) (y.eraseIdx i) [x.getD i 0]
              kernel hb d =
              KernelSmoother.call
                ⟨x.eraseIdx i, y.eraseIdx i, kernel, hb, d⟩
                [x.getD i 0] := rfl
          rw [← hcall, hsm, hv]
        | cons w u => simp at hpt
  · unfold loo_mse
    rw [hok]
    simp only [ok_bind]
    rw [if_pos (by rw [hylen, hlen])]
    rw [zipWith_sq_sum y yhat (by rw [hylen, hlen])]
    rw [hlen]

/-- Concrete leave-one-out run: two samples with constant y and a
constant-1 kernel give zero out-of-sample residuals at any bandwidth. -/
lemma loo_const_pair (hb : ℚ) (hh : hb ≠ 0) :
    loo_estimates [0, 1] [0, 0] (fun _ => 1) hb 0 = .ok [0, 0] := by
  have h0 : smooth [1] [0] [0] (fun _ => 1) hb 0 = .ok [0] := by
    show KernelSmoother.call ⟨[1], [0], fun _ => 1, hb, 0⟩ [0] = .ok [0]
    rw [call_const_one [1] [0] hb [0] (by simp) rfl hh]
    norm_num
  have h1 : smooth [0] [0] [1] (fun _ => 1) hb 0 = .ok [0] := by
    show KernelSmoother.call ⟨[0], [0], fun _ => 1, hb, 0⟩ [1] = .ok [0]
    rw [call_const_one [0] [0] hb [1] (by simp) rfl hh]
    norm_num
  unfold loo_estimates
  have hr : List.range ([0, 1] : List ℚ).length = [0, 1] := rfl
  rw [hr]
  simp [mapExcept, h0, h1, ok_bind]

/-- C3 witness: hypotheses and conclusion of `C3_loo_estimates` at a
concrete sample set. -/
theorem C3_witness :
    (([0, 0] : List ℚ).length = ([0, 1] : List ℚ).length ∧
      loo_estimates [0, 1] [0, 0] (fun _ => 1) 1 0 = .ok [0, 0]) ∧
    (([0, 0] : List ℚ).length = ([0, 1] : List ℚ).length ∧
      (∀ i < ([0, 1] : List ℚ).length,
        KernelSmoother.call
          ⟨([0, 1] : List ℚ).eraseIdx i, ([0, 0] : List ℚ).eraseIdx i,
            fun _ => 1, 1, 0⟩ [([0, 1] : List ℚ).getD i 0] =
          .ok [([0, 0] : List ℚ).getD i 0]) ∧
      loo_mse [0, 1] [0, 0] (fun _ => 1) 1 0 =
        .ok ((∑ i ∈ Finset.range ([0, 1] : List ℚ).length,
          (([0, 0] : List ℚ).getD i 0 - ([0, 0] : List ℚ).getD i 0) ^ 2) /
            ((([0, 1] : List ℚ).length : ℕ) : ℚ))) := by
  have hok := loo_const_pair 1 one_ne_zero
  exact ⟨⟨rfl, hok⟩,
    C3_loo_estimates [0, 1] [0, 0] (fun _ => 1) 1 0 [0, 0] rfl hok⟩

/-- C4: when every candidate's leave-one-out mean squared error is
defined, `estimate_bandwidth` returns the candidate whose error is
minimal, and among ties the earliest candidate in input order (the strict
inequality over earlier indices is the stable tie-break). -/
theorem C4_stable_argmin (x y : List ℚ) (kernel : ℚ → ℚ)
    (bandwidths : List ℚ) (degree : ℕ) (mses : List ℚ)
    (hbw : bandwidths ≠ [])
    (hok : mapExcept (fun h => loo_mse x y kernel h degree) bandwidths =
      .ok mses) :
    (∀ k < bandwidths.length,
      loo_mse x y kernel (bandwidths.getD k 0) degree =
        .ok (mses.getD k 0)) ∧
    ∃ j < bandwidths.length,
      estimate_bandwidth x y kernel bandwidths degree =
        .ok (bandwidths.getD j 0) ∧
      (∀ k < bandwidths.length, mses.getD j 0 ≤ mses.getD k 0) ∧
      (∀ k < j, mses.getD j 0 < mses.getD k 0) := by
  have hlen := mapExcept_ok_length _ _ _ hok
  refine ⟨fun k hk => mapExcept_ok_getD _ 0 0 _ _ hok k hk, ?_⟩
  have hmne : mses ≠ [] := by
    intro h
    rw [h] at hlen
    exact hbw (List.length_eq_zero.mp hlen.symm)
  obtain ⟨j, hj1, hj2, hj3, hj4⟩ := argmin_spec mses hmne
  refine ⟨j, by rw [← hlen]; exact hj2, ?_, ?_, hj4⟩
  · unfold estimate_bandwidth
    rw [hok]
    simp only [ok_bind]
    rw [hj1]
  · intro k hk
    exact hj3 k (by rw [hlen]; exact hk)

/-- C4 witness: two candidate bandwidths with identical (zero) LOO mean
squared error; the selector returns the first candidate. -/
theorem C4_witness :
    (([1, 2] : List ℚ) ≠ [] ∧
      mapExcept (fun h => loo_mse [0, 1] [0, 0] (fun _ => 1) h 0) [1, 2] =
        .ok [0, 0]) ∧
    ((∀ k < ([1, 2] : List ℚ).length,
      loo_mse [0, 1] [0, 0] (fun _ => 1) (([1, 2] : List ℚ).getD k 0) 0 =
        .ok (([0, 0] : List ℚ).getD k 0)) ∧
    ∃ j < ([1, 2] : List ℚ).length,
      estimate_bandwidth [0, 1] [0, 0] (fun _ => 1) [1, 2] 0 =
        .ok (([1, 2] : List ℚ).getD j 0) ∧
      (∀ k < ([1, 2] : List ℚ).length,
        ([0, 0] : List ℚ).getD j 0 ≤ ([0, 0] : List ℚ).getD k 0) ∧
      (∀ k < j, ([0, 0] : List ℚ).getD j 0 < ([0, 0] : List ℚ).getD k 0)) ∧
    estimate_bandwidth [0, 1] [0, 0] (fun _ => 1) [1, 2] 0 = .ok 1 := by
  have hm1 : loo_mse [0, 1] [0, 0] (fun _ => 1) 1 0 = .ok 0 := by
    unfold loo_mse
    rw [loo_const_pair 1 one_ne_zero]
    simp only [ok_bind]
    norm_num
  have hm2 : loo_mse [0, 1] [0, 0] (fun _ => 1) 2 0 = .ok 0 := by
    unfold loo_mse
    rw [loo_const_pair 2 (by norm_num)]
    simp only [ok_bind]
    norm_num
  have hok : mapExcept (fun h => loo_mse [0, 1] [0, 0] (fun _ => 1) h 0)
      [1, 2] = .ok [0, 0] := by
    simp [mapExcept, hm1, hm2, ok_bind]
  have hsel : estimate_bandwidth [0, 1] [0, 0] (fun _ => 1) [1, 2] 0 =
      .ok 1 := by
    unfold estimate_bandwidth
    rw [hok]
    simp only [ok_bind]
    simp [argmin, argminAux]
  exact ⟨⟨by simp, hok⟩,
    ⟨⟨(C4_stable_argmin [0, 1] [0, 0] (fun _ => 1) [1, 2] 0 [0, 0]
        (by simp) hok).1,
      (C4_stable_argmin [0, 1] [0, 0] (fun _ => 1) [1, 2] 0 [0, 0]
        (by simp) hok).2⟩, hsel⟩⟩

/-- C5 counterexample: `__init__` with `x` and `y` of different lengths
does not fail: it returns the smoother, so no "length mismatch" error is
raised at construction. -/
theorem C5_counterexample :
    KernelSmoother.init [0, 1] [0] (fun _ => 1) 1 1 =
      .ok ⟨[0, 1], [0], fun _ => 1, 1, 1⟩ := rfl

/-- C5 amended: construction performs no length validation and always
succeeds; the mismatch surfaces only when evaluation reaches the weighted
least squares step, whose matrix product raises the shape error (after the
design matrix and the weights have already been computed). -/
theorem C5_no_length_validation (x y : List ℚ) (kernel : ℚ → ℚ) (hb : ℚ)
    (d : ℕ) (q : ℚ) (qs : List ℚ) (hne : y.length ≠ x.length) :
    KernelSmoother.init x y kernel hb d = .ok ⟨x, y, kernel, hb, d⟩ ∧
    smooth x y (q :: qs) kernel hb d = .error .shapeMismatch := by
  refine ⟨rfl, ?_⟩
  show KernelSmoother.call ⟨x, y, kernel, hb, d⟩ (q :: qs) =
    .error .shapeMismatch
  have hev : KernelSmoother.evalAt ⟨x, y, kernel, hb, d⟩ q =
      .error .shapeMismatch := by
    unfold KernelSmoother.evalAt
    have hsh := wls_shape_error y
      (KernelSmoother._design ⟨x, y, kernel, hb, d⟩ q)
      (KernelSmoother._weights ⟨x, y, kernel, hb, d⟩ q)
      (fun hcon =>
        hne (hcon.1.trans (design_length ⟨x, y, kernel, hb, d⟩ q)))
    rw [hsh]
    rfl
  unfold KernelSmoother.call
  simp [mapExcept, hev, error_bind]

/-- C5 witness: a concrete mismatched pair for which construction
succeeds and evaluation raises the shape error. -/
theorem C5_witness :
    (([0] : List ℚ).length ≠ ([0, 1] : List ℚ).length) ∧
    KernelSmoother.init [0, 1] [0] (fun _ => 1) 1 1 =
      .ok ⟨[0, 1], [0], fun _ => 1, 1, 1⟩ ∧
    smooth [0, 1] [0] [5] (fun _ => 1) 1 1 = .error .shapeMismatch := by
  have h := C5_no_length_validation [0, 1] [0] (fun _ => 1) 1 1 5 []
    (by norm_num)
  exact ⟨by norm_num, h.1, h.2⟩

/-- C6 counterexample: `__init__` accepts a non-positive bandwidth (0) and
returns the smoother; no "invalid configuration" error is raised. -/
theorem C6_counterexample :
    KernelSmoother.init [0] [0] (fun _ => 1) 0 1 =
      .ok ⟨[0], [0], fun _ => 1, 0, 1⟩ := rfl

/-- C6 amended: construction validates nothing: for any bandwidth,
including non-positive ones, `__init__` simply stores the arguments and
succeeds; no invalid-configuration failure exists at construction time. -/
theorem C6_no_config_validation (x y : List ℚ) (kernel : ℚ → ℚ) (hb : ℚ)
    (d : ℕ) (hnp : hb ≤ 0) :
    KernelSmoother.init x y kernel hb d = .ok ⟨x, y, kernel, hb, d⟩ := rfl

/-- C6 witness: `C6_no_config_validation` at bandwidth 0. -/
theorem C6_witness :
    ((0 : ℚ) ≤ 0) ∧
    KernelSmoother.init [1] [2] (fun _ => 1) 0 3 =
      .ok ⟨[1], [2], fun _ => 1, 0, 3⟩ :=
  ⟨le_refl 0, C6_no_config_validation [1] [2] (fun _ => 1) 0 3 (le_refl 0)⟩

/-- C7 counterexample: two different offending query points produce the
identical singular-matrix error value, so the raised error cannot identify
the offending query point. -/
theorem C7_counterexample :
    KernelSmoother.call ⟨[0], [1], fun _ => 0, 1, 0⟩ [5] =
      .error .singularMatrix ∧
    KernelSmoother.call ⟨[0], [1], fun _ => 0, 1, 0⟩ [7] =
      .error .singularMatrix ∧
    (5 : ℚ) ≠ 7 :=
  ⟨zero_kernel_call 5, zero_kernel_call 7, by norm_num⟩

/-- C7 amended: whenever the normal matrix at some query point of the
batch is singular, evaluation fails with the solver's singular-matrix
error; the error propagates uncaught (no estimate list, hence no default
or NaN, is returned), but it is the generic `LinAlgError` value, which
carries no information about the offending query point. -/
theorem C7_singular_fit_error (s : KernelSmoother) (qs : List ℚ)
    (hlen : s.y.length = s.x.length)
    (hq : ∃ q ∈ qs,
      (normalMatrix (s._design q) (s._weights q)).det = 0) :
    s.call qs = .error .singularMatrix := by
  obtain ⟨q0, hq0, hdet0⟩ := hq
  have hx : s.x ≠ [] := by
    intro hxe
    have hm : ncols (s._design q0) = 0 := by
      simp [KernelSmoother._design, _polynomial, ncols, hxe]
    haveI : IsEmpty (Fin (ncols (s._design q0))) :=
      ⟨fun i => absurd i.isLt (by omega)⟩
    rw [Matrix.det_isEmpty] at hdet0
    exact one_ne_zero hdet0
  unfold KernelSmoother.call
  apply mapExcept_error_of_mem
  · intro q _
    rcases evalAt_cases s q hlen hx with ⟨_, h⟩ | ⟨_, v, h⟩
    · exact Or.inl h
    · exact Or.inr ⟨v, h⟩
  · refine ⟨q0, hq0, ?_⟩
    rcases evalAt_cases s q0 hlen hx with ⟨_, h⟩ | ⟨hd, _⟩
    · exact h
    · exact absurd hdet0 hd

/-- C7 witness: a concrete singular configuration (identically zero
kernel), whose evaluation raises the singular-matrix error. -/
theorem C7_witness :
    (([1] : List ℚ).length = ([0] : List ℚ).length ∧
      (normalMatrix
        (KernelSmoother._design ⟨[0], [1], fun _ => 0, 1, 0⟩ 3)
        (KernelSmoother._weights ⟨[0], [1], fun _ => 0, 1, 0⟩ 3)).det = 0) ∧
    KernelSmoother.call ⟨[0], [1], fun _ => 0, 1, 0⟩ [3] =
      .error .singularMatrix :=
  ⟨⟨rfl, zero_kernel_det 3⟩,
    C7_singular_fit_error ⟨[0], [1], fun _ => 0, 1, 0⟩ [3] rfl
      ⟨3, by simp, zero_kernel_det 3⟩⟩
